import Mathlib

/-!
Sequential read comparison benchmark (`bench.cpp`).

A shallow embedding of `bench.cpp`: the chunk reducer `process_chunk`, the three
traversal strategies `readMethod`, `mmapMethod`, `mmapOptMethod`, and `main`.

Modelling conventions.

* Memory seen through a `char*` is a function `Nat → Nat` from byte offset to byte value
  (taken modulo 256 when loaded).  Pointer arithmetic `p + k` is the shifted view `shift p k`.
  Memory is total: what lies past the end of an object is supplied by the environment, and a
  fault on such an access is not modelled.
* A `long` is carried as its 64-bit pattern, a natural number below `2 ^ 64`; `toLong` gives the
  signed value that `std::cout <<` prints.  `data[i]` is the little-endian load `loadLong`.
* `size_t` arithmetic that the source performs in a loop header is reduced modulo `2 ^ 64`.
* `CHUNK_SIZE` is a compile-time constant of the source, which ships `1 << 20` and documents the
  alternative `1 << 14`; the strategies take it as their first argument `cs`.
* The operating system is an environment `Env`: whether `open`, `fstat`, `mmap` succeed, the
  bytes of the file, what the successive `read` calls return, the initial contents of the
  `new char[CHUNK_SIZE]` buffer, and the memory that follows the mapped file.
* The advisory calls `posix_fadvise` and `madvise` have no effect on the values read.
-/

namespace Bench

/-! ## Constants -/

/-- Source line 8: `constexpr size_t CHUNK_SIZE = 1 << 20;`. -/
def CHUNK_SIZE : Nat := 1 <<< 20

/-- Source line 13, the documented alternative: `constexpr size_t CHUNK_SIZE = 1 << 14;`. -/
def CHUNK_SIZE_16KiB : Nat := 1 <<< 14

/-- The value of `EXIT_FAILURE`. -/
def EXIT_FAILURE : Nat := 1

/-- Number of values of a `size_t`. -/
def SIZE_MOD : Nat := 2 ^ 64

/-- Number of non-negative values of an `off_t` (the type of `st_size`). -/
def OFF_MAX : Nat := 2 ^ 63

/-! ## Memory and words -/

/-- Little-endian value of the `n` bytes of `mem` starting at byte address `a`. -/
def loadBytes (mem : Nat → Nat) (a : Nat) : Nat → Nat
  | 0 => 0
  | n + 1 => mem a % 256 + 256 * loadBytes mem (a + 1) n

/-- The expression `data[i]` for `long* data = reinterpret_cast<long*>(chunk)`: the 64-bit word
made of bytes `8 * i .. 8 * i + 7` of `chunk`. -/
def loadLong (chunk : Nat → Nat) (i : Nat) : Nat :=
  loadBytes chunk (8 * i) 8

/-- The pointer `p + k` seen as memory. -/
def shift (p : Nat → Nat) (k : Nat) : Nat → Nat :=
  fun i => p (k + i)

/-- Signed value of a 64-bit pattern, as printed for a `long`. -/
def toLong (w : Nat) : Int :=
  if w % 2 ^ 64 < 2 ^ 63 then (w % 2 ^ 64 : Nat) else (w % 2 ^ 64 : Nat) - 2 ^ 64

/-! ## The chunk reducer -/

/-- State of the loop of `process_chunk`: the local `result` and the log of the indices `i` at
which `data[i]` has been read. -/
structure ChunkRun where
  result : Nat
  reads : List Nat

/-- The loop `for (size_t i = 0; i < numLongs; ++i) { result ^= data[i]; }`, entered at `i`. -/
def process_chunk_loop (chunk : Nat → Nat) (numLongs : Nat) (i : Nat) (st : ChunkRun) :
    ChunkRun :=
  if i < numLongs then
    process_chunk_loop chunk numLongs (i + 1)
      ⟨st.result ^^^ loadLong chunk i, st.reads ++ [i]⟩
  else st
termination_by numLongs - i

/-- The body of `process_chunk` with its read log: `result = 0`, `numLongs = size / sizeof(long)`,
then the loop. -/
def process_chunk_run (chunk : Nat → Nat) (size : Nat) : ChunkRun :=
  process_chunk_loop chunk (size / 8) 0 ⟨0, []⟩

/-- The function `long process_chunk(char* chunk, size_t size)`. -/
def process_chunk (chunk : Nat → Nat) (size : Nat) : Nat :=
  (process_chunk_run chunk size).result

/-! ## Operating system environment -/

/-- What one call `read(fd, buffer, CHUNK_SIZE)` does: fail with `-1`, or deliver bytes. -/
inductive ReadResult where
  | error : ReadResult
  | bytes (data : List Nat) : ReadResult

/-- Environment of one run of the program. -/
structure Env where
  /-- Whether `open(filePath, O_RDONLY)` returns a descriptor. -/
  openOk : Bool
  /-- Whether `fstat` succeeds. -/
  fstatOk : Bool
  /-- Whether `mmap` returns something else than `MAP_FAILED`. -/
  mmapOk : Bool
  /-- The bytes of the file; `st_size` is its length. -/
  file : List Nat
  /-- What the successive calls of `read` return; once used up, `read` returns `0`. -/
  reads : List ReadResult
  /-- The contents of the buffer `new char[CHUNK_SIZE]` before the first `read`. -/
  garbage : Nat → Nat
  /-- The memory that follows the last byte of the mapped file. -/
  beyond : Nat → Nat

/-- The system call `read(fd, buffer, count)` with outcome `r`: the returned `ssize_t` and the
buffer afterwards (the bytes delivered overwrite the start of the buffer). -/
def sysRead (r : ReadResult) (buffer : Nat → Nat) (count : Nat) : Int × (Nat → Nat) :=
  match r with
  | .error => (-1, buffer)
  | .bytes data => (((data.take count).length : Nat), fun i => (data.take count).getD i (buffer i))

/-- The memory at the address returned by `mmap(nullptr, st_size, PROT_READ, MAP_PRIVATE, fd, 0)`:
the bytes of the file, followed by whatever memory comes next. -/
def mapped (file : List Nat) (beyond : Nat → Nat) : Nat → Nat :=
  fun i => file.getD i (beyond (i - file.length))

/-- The reads of a regular file of contents `file` through a buffer of `cs` bytes when nothing
interrupts them: call number `k` delivers bytes `k * cs .. (k + 1) * cs - 1` of the file, the last
call what is left of it. -/
def fileReads (cs : Nat) (file : List Nat) : List ReadResult :=
  (List.range ((file.length + cs - 1) / cs)).map
    (fun k => ReadResult.bytes ((file.drop (k * cs)).take cs))

/-! ## Observable behaviour of a run -/

/-- What a run has done so far. -/
structure Proc where
  /-- The integers `v` of the lines `Result: v` written to `std::cout`. -/
  stdout : List Int
  /-- The messages written to standard error. -/
  stderr : List String
  /-- The calls `process_chunk(p, size)` made, as pairs (offset of `p` in its region, `size`). -/
  calls : List (Nat × Nat)
  /-- The status the process ended with, once it has ended. -/
  status : Option Nat

/-- State of the accumulation loops: the local `res` and the calls of `process_chunk` so far. -/
structure Acc where
  res : Nat
  calls : List (Nat × Nat)

/-! ## Buffered reader -/

/-- The loop `while ((bytesRead = read(fd, buffer, CHUNK_SIZE)) > 0)
{ res ^= process_chunk(buffer, CHUNK_SIZE); }` of `readMethod`. -/
def readLoop (cs : Nat) : List ReadResult → (Nat → Nat) → Acc → Acc
  | [], _, st => st
  | r :: rest, buffer, st =>
    let bytesRead := (sysRead r buffer cs).1
    let buffer1 := (sysRead r buffer cs).2
    if bytesRead > 0 then
      readLoop cs rest buffer1 ⟨st.res ^^^ process_chunk buffer1 cs, st.calls ++ [(0, cs)]⟩
    else st

/-- The function `void readMethod(const char* filePath)`. -/
def readMethod (cs : Nat) (env : Env) : Proc :=
  if env.openOk = false then
    ⟨[], ["Error opening file"], [], some EXIT_FAILURE⟩
  else
    let st := readLoop cs env.reads env.garbage ⟨0, []⟩
    ⟨[toLong st.res], [], st.calls, none⟩

/-! ## Mapped readers -/

/-- The loop `for (size_t offset = 0; offset < sb.st_size; offset += CHUNK_SIZE)
{ res ^= process_chunk(data + offset, CHUNK_SIZE); madvise(...); }`, entered at `offset`, with
`fuel` bounding the number of evaluations of the loop condition.  The comparison is made in
`size_t`; `st_size`, an `off_t` that `fstat` fills with a size, is not negative, so it is the
comparison of the two values.  The update of `offset` is a `size_t` addition. -/
def mmapLoop (cs : Nat) (data : Nat → Nat) (st_size : Nat) : Nat → Nat → Acc → Option Acc
  | 0, _, _ => none
  | fuel + 1, offset, st =>
    if offset < st_size then
      mmapLoop cs data st_size fuel ((offset + cs) % SIZE_MOD)
        ⟨st.res ^^^ process_chunk (shift data offset) cs, st.calls ++ [(offset, cs)]⟩
    else some st

/-- The function `void mmapMethod(const char* filePath)`. -/
def mmapMethod (cs : Nat) (env : Env) (fuel : Nat) : Option Proc :=
  if env.openOk = false then
    some ⟨[], ["Error opening file"], [], some EXIT_FAILURE⟩
  else if env.fstatOk = false then
    some ⟨[], ["Error getting file size"], [], some EXIT_FAILURE⟩
  else if env.mmapOk = false then
    some ⟨[], ["Error mmapping the file"], [], some EXIT_FAILURE⟩
  else
    match mmapLoop cs (mapped env.file env.beyond) env.file.length fuel 0 ⟨0, []⟩ with
    | none => none
    | some st => some ⟨[toLong st.res], [], st.calls, none⟩

/-- The function `void mmapOptMethod(const char* filePath)`; the extra
`madvise(data, sb.st_size, MADV_SEQUENTIAL)` is advisory. -/
def mmapOptMethod (cs : Nat) (env : Env) (fuel : Nat) : Option Proc :=
  if env.openOk = false then
    some ⟨[], ["Error opening file"], [], some EXIT_FAILURE⟩
  else if env.fstatOk = false then
    some ⟨[], ["Error getting file size"], [], some EXIT_FAILURE⟩
  else if env.mmapOk = false then
    some ⟨[], ["Error mmapping the file"], [], some EXIT_FAILURE⟩
  else
    match mmapLoop cs (mapped env.file env.beyond) env.file.length fuel 0 ⟨0, []⟩ with
    | none => none
    | some st => some ⟨[toLong st.res], [], st.calls, none⟩

/-! ## Entry point -/

/-- The XOR of `f 0`, ..., `f (n - 1)`. -/
def xorFold (f : Nat → Nat) : Nat → Nat
  | 0 => 0
  | n + 1 => xorFold f n ^^^ f n

/-- The scratch buffer as it stands after the first `k` calls of `read`, starting from `buffer`:
each call overwrites the first bytes of the buffer with what it delivers and leaves the rest. -/
def bufferAfter (cs : Nat) (buffer : Nat → Nat) : List ReadResult → Nat → (Nat → Nat)
  | _, 0 => buffer
  | [], _ + 1 => buffer
  | r :: rest, k + 1 => bufferAfter cs (sysRead r buffer cs).2 rest k

/-- The value a call of `read` with outcome `r` returns for a request of `count` bytes. -/
def readRet (r : ReadResult) (count : Nat) : Int :=
  (sysRead r (fun _ => 0) count).1

/-- The number of calls of `read` that return more than `0` before the first one that returns
`0` or a negative value. -/
def leadingReads (cs : Nat) : List ReadResult → Nat
  | [] => 0
  | r :: rest => if readRet r cs > 0 then leadingReads cs rest + 1 else 0

/-- The number of windows of `cs` bytes needed to cover `s` bytes: `s / cs` rounded up. -/
def numChunks (cs s : Nat) : Nat :=
  (s + cs - 1) / cs

/-- The calls `process_chunk(data + k * cs, cs)` for `k = 0, ..., n - 1`. -/
def windows (cs n : Nat) : List (Nat × Nat) :=
  (List.range n).map (fun k => (k * cs, cs))

/-- The file made of the 64-bit word `w` written `n` times (little-endian bytes). -/
def wordFile (w n : Nat) : List Nat :=
  (List.range (8 * n)).map (fun i => w / 256 ^ (i % 8) % 256)

/-- The environment of a run on a regular file of contents `file` in which `open`, `fstat` and
`mmap` succeed and `read` delivers the file in chunks of `cs` bytes. -/
def fileEnv (cs : Nat) (file : List Nat) (garbage beyond : Nat → Nat) : Env :=
  ⟨true, true, true, file, fileReads cs file, garbage, beyond⟩

/-- A run on a file of exactly `CHUNK_SIZE` bytes, the word `5` repeated, with every system call
succeeding. -/
def sampleFullEnv : Env :=
  fileEnv CHUNK_SIZE (wordFile 5 (CHUNK_SIZE / 8)) (fun _ => 7) (fun _ => 9)

/-- A run on an empty file whose zero-length mapping the system rejects. -/
def sampleEmptyEnv : Env :=
  ⟨true, true, false, [], [], fun _ => 0, fun _ => 0⟩

/-- A run in which `read` delivers one word, then fails; a later read is never reached. -/
def sampleReadsEnv : Env :=
  ⟨true, true, true, [], [.bytes [1, 0, 0, 0, 0, 0, 0, 0], .error, .bytes [2]],
    fun _ => 0, fun _ => 0⟩

theorem process_chunk_loop_inv (chunk : Nat → Nat) (n : Nat) :
    ∀ d i, i + d = n →
      process_chunk_loop chunk n i ⟨xorFold (loadLong chunk) i, List.range i⟩
        = ⟨xorFold (loadLong chunk) n, List.range n⟩ := by
  intro d
  induction d with
  | zero =>
    intro i h
    have hi : i = n := by omega
    subst hi
    unfold process_chunk_loop
    simp
  | succ d ih =>
    intro i h
    unfold process_chunk_loop
    have hlt : i < n := by omega
    rw [if_pos hlt]
    have := ih (i + 1) (by omega)
    simpa [xorFold, List.range_succ] using this

theorem process_chunk_run_eq (chunk : Nat → Nat) (size : Nat) :
    process_chunk_run chunk size
      = ⟨xorFold (loadLong chunk) (size / 8), List.range (size / 8)⟩ := by
  have := process_chunk_loop_inv chunk (size / 8) (size / 8) 0 (by omega)
  simpa [process_chunk_run, xorFold] using this

theorem process_chunk_eq (chunk : Nat → Nat) (size : Nat) :
    process_chunk chunk size = xorFold (loadLong chunk) (size / 8) := by
  simp [process_chunk, process_chunk_run_eq]

theorem xorFold_congr (f g : Nat → Nat) (n : Nat) (h : ∀ i, i < n → f i = g i) :
    xorFold f n = xorFold g n := by
  induction n with
  | zero => rfl
  | succ n ih =>
    simp only [xorFold]
    rw [ih (fun i hi => h i (by omega)), h n (by omega)]

theorem loadBytes_congr (m m1 : Nat → Nat) (n : Nat) :
    ∀ a, (∀ j, j < n → m (a + j) = m1 (a + j)) → loadBytes m a n = loadBytes m1 a n := by
  induction n with
  | zero => intro a _; rfl
  | succ n ih =>
    intro a h
    simp only [loadBytes]
    have h0 := h 0 (by omega)
    simp only [Nat.add_zero] at h0
    rw [h0, ih (a + 1) (fun j hj => by
      have := h (j + 1) (by omega)
      simpa [Nat.add_assoc, Nat.add_comm 1 j] using this)]

theorem loadLong_congr (m m1 : Nat → Nat) (i : Nat)
    (h : ∀ j, j < 8 → m (8 * i + j) = m1 (8 * i + j)) : loadLong m i = loadLong m1 i :=
  loadBytes_congr m m1 8 (8 * i) h

theorem process_chunk_congr (chunk chunk1 : Nat → Nat) (size : Nat)
    (h : ∀ j, j < 8 * (size / 8) → chunk1 j = chunk j) :
    process_chunk chunk1 size = process_chunk chunk size := by
  rw [process_chunk_eq, process_chunk_eq]
  apply xorFold_congr
  intro i hi
  apply loadLong_congr
  intro j hj
  exact h _ (by omega)

/-- C1. For every chunk memory and every size, `process_chunk` returns the XOR of the first
`size / 8` 64-bit words of the chunk, which is `0` when `size < 8`; two chunks that agree on
the bytes of these whole words give the same result, so the trailing `size % 8` bytes (and
anything after them) do not affect it. -/
theorem process_chunk_xor_of_words (chunk : Nat → Nat) (size : Nat) :
    process_chunk chunk size = xorFold (loadLong chunk) (size / 8)
    ∧ (size < 8 → process_chunk chunk size = 0)
    ∧ (∀ chunk1 : Nat → Nat, (∀ j, j < 8 * (size / 8) → chunk1 j = chunk j) →
        process_chunk chunk1 size = process_chunk chunk size) := by
  refine ⟨process_chunk_eq chunk size, ?_, ?_⟩
  · intro h
    rw [process_chunk_eq, Nat.div_eq_of_lt h]
    rfl
  · intro chunk1 h
    exact process_chunk_congr chunk chunk1 size h

/-- C5. Every word index `i` at which `process_chunk` reads `data[i]` satisfies
`8 * i + 8 ≤ size`, so each byte it touches lies below `size`, and on a buffer of at least
`size` bytes every byte it touches is inside the buffer. -/
theorem process_chunk_reads_in_bounds (chunk : Nat → Nat) (size i : Nat)
    (hi : i ∈ (process_chunk_run chunk size).reads) :
    8 * i + 8 ≤ size
    ∧ (∀ j, j < 8 → 8 * i + j < size)
    ∧ (∀ len, size ≤ len → ∀ j, j < 8 → 8 * i + j < len) := by
  rw [process_chunk_run_eq] at hi
  simp only [List.mem_range] at hi
  have h8 : 8 * (size / 8) ≤ size := Nat.mul_div_le size 8
  refine ⟨by omega, fun j hj => by omega, fun len hl j hj => by omega⟩

theorem process_chunk_reads_in_bounds_witness :
    2 ∈ (process_chunk_run (fun _ => 0) 24).reads
    ∧ (8 * 2 + 8 ≤ 24
      ∧ (∀ j, j < 8 → 8 * 2 + j < 24)
      ∧ (∀ len, 24 ≤ len → ∀ j, j < 8 → 8 * 2 + j < len)) :=
  have h : 2 ∈ (process_chunk_run (fun _ => 0) 24).reads := by
    rw [process_chunk_run_eq]; decide
  ⟨h, process_chunk_reads_in_bounds (fun _ => 0) 24 2 h⟩

/-! ## Facts about `xorFold` -/

theorem xorFold_succ_left (g : Nat → Nat) (n : Nat) :
    xorFold g (n + 1) = g 0 ^^^ xorFold (fun i => g (i + 1)) n := by
  induction n with
  | zero => simp [xorFold]
  | succ n ih =>
    rw [xorFold, ih]
    simp only [xorFold]
    rw [Nat.xor_assoc]

theorem xorFold_add (f : Nat → Nat) (a b : Nat) :
    xorFold f (a + b) = xorFold f a ^^^ xorFold (fun i => f (a + i)) b := by
  induction b with
  | zero => simp [xorFold]
  | succ b ih =>
    rw [← Nat.add_assoc]
    simp only [xorFold]
    rw [ih, Nat.xor_assoc]

theorem xorFold_zero_fun (f : Nat → Nat) (n : Nat) (h : ∀ i, i < n → f i = 0) :
    xorFold f n = 0 := by
  induction n with
  | zero => rfl
  | succ n ih =>
    simp only [xorFold]
    rw [ih (fun i hi => h i (by omega)), h n (by omega)]
    rfl

theorem xorFold_const (w : Nat) (n : Nat) :
    xorFold (fun _ => w) n = if n % 2 = 0 then 0 else w := by
  induction n with
  | zero => rfl
  | succ n ih =>
    simp only [xorFold]
    rw [ih]
    by_cases h : n % 2 = 0
    · have : ¬ (n + 1) % 2 = 0 := by omega
      simp [h, this]
    · have : (n + 1) % 2 = 0 := by omega
      simp [h, this]

/-! ## The mapped readers: proofs -/

theorem size_bound (s cs : Nat) (hs : s < OFF_MAX) (hcs : cs ≤ OFF_MAX) :
    s + cs ≤ SIZE_MOD := by
  have h2 : SIZE_MOD = 18446744073709551616 := by decide
  have h3 : OFF_MAX = 9223372036854775808 := by decide
  omega

theorem fileEnv_reads (cs : Nat) (file : List Nat) (g beyond : Nat → Nat) :
    (fileEnv cs file g beyond).reads = fileReads cs (fileEnv cs file g beyond).file := rfl

theorem fileEnv_file (cs : Nat) (file : List Nat) (g beyond : Nat → Nat) :
    (fileEnv cs file g beyond).file = file := rfl

theorem wordFile_length (w n : Nat) : (wordFile w n).length = 8 * n := by
  simp [wordFile]

theorem lt_numChunks_iff (cs s k : Nat) (hcs : 0 < cs) : k < numChunks cs s ↔ k * cs < s := by
  unfold numChunks
  rw [Nat.lt_iff_add_one_le, Nat.le_div_iff_mul_le hcs, Nat.add_mul]
  omega

theorem le_numChunks_mul (cs s : Nat) (hcs : 0 < cs) : s ≤ numChunks cs s * cs := by
  by_contra h
  have h1 : numChunks cs s * cs < s := by omega
  have := (lt_numChunks_iff cs s (numChunks cs s) hcs).mpr h1
  omega

theorem numChunks_mul (cs m : Nat) (hcs : 0 < cs) : numChunks cs (m * cs) = m := by
  apply Nat.le_antisymm
  · by_contra h
    have h1 : m < numChunks cs (m * cs) := by omega
    have := (lt_numChunks_iff cs (m * cs) m hcs).mp h1
    omega
  · have h1 := le_numChunks_mul cs (m * cs) hcs
    exact Nat.le_of_mul_le_mul_right h1 hcs

theorem mmapLoop_inv (cs : Nat) (data : Nat → Nat) (s : Nat) (hcs : 0 < cs)
    (hs : s + cs ≤ SIZE_MOD) :
    ∀ d k fuel, k + d = numChunks cs s → d < fuel →
      mmapLoop cs data s fuel (k * cs)
          ⟨xorFold (fun j => process_chunk (shift data (j * cs)) cs) k, windows cs k⟩
        = some ⟨xorFold (fun j => process_chunk (shift data (j * cs)) cs) (numChunks cs s),
            windows cs (numChunks cs s)⟩ := by
  intro d
  induction d with
  | zero =>
    intro k fuel hk hf
    have hk1 : k = numChunks cs s := by omega
    obtain ⟨fuel, rfl⟩ : ∃ f, fuel = f + 1 := ⟨fuel - 1, by omega⟩
    have hge : ¬ k * cs < s := by
      rw [← lt_numChunks_iff cs s k hcs]; omega
    simp only [mmapLoop, if_neg hge]
    rw [hk1]
  | succ d ih =>
    intro k fuel hk hf
    obtain ⟨fuel, rfl⟩ : ∃ f, fuel = f + 1 := ⟨fuel - 1, by omega⟩
    have hlt : k * cs < s := by
      rw [← lt_numChunks_iff cs s k hcs]; omega
    have hnext : (k * cs + cs) % SIZE_MOD = (k + 1) * cs := by
      rw [Nat.add_mul, Nat.one_mul]
      apply Nat.mod_eq_of_lt
      omega
    simp only [mmapLoop, if_pos hlt, hnext]
    have := ih (k + 1) fuel (by omega) (by omega)
    simpa [xorFold, windows, List.range_succ] using this

theorem mmapLoop_eq (cs : Nat) (data : Nat → Nat) (s fuel : Nat) (hcs : 0 < cs)
    (hs : s + cs ≤ SIZE_MOD) (hf : numChunks cs s < fuel) :
    mmapLoop cs data s fuel 0 ⟨0, []⟩
      = some ⟨xorFold (fun j => process_chunk (shift data (j * cs)) cs) (numChunks cs s),
          windows cs (numChunks cs s)⟩ := by
  have := mmapLoop_inv cs data s hcs hs (numChunks cs s) 0 fuel (by omega) hf
  simpa [xorFold, windows] using this

theorem mmapOptMethod_eq_mmapMethod (cs : Nat) (env : Env) (fuel : Nat) :
    mmapOptMethod cs env fuel = mmapMethod cs env fuel := rfl

theorem mmapMethod_eq (cs : Nat) (env : Env) (fuel : Nat) (hcs : 0 < cs)
    (hs : env.file.length + cs ≤ SIZE_MOD) (hf : numChunks cs env.file.length < fuel)
    (ho : env.openOk = true) (hst : env.fstatOk = true) (hm : env.mmapOk = true) :
    mmapMethod cs env fuel
      = some ⟨[toLong (xorFold
            (fun j => process_chunk (shift (mapped env.file env.beyond) (j * cs)) cs)
            (numChunks cs env.file.length))], [],
          windows cs (numChunks cs env.file.length), none⟩ := by
  simp [mmapMethod, ho, hst, hm, mmapLoop_eq cs _ _ fuel hcs hs hf]

/-! ## The buffered reader: proofs -/

theorem sysRead_fst (r : ReadResult) (buffer : Nat → Nat) (count : Nat) :
    (sysRead r buffer count).1 = readRet r count := by
  cases r <;> rfl

theorem readLoop_eq (cs : Nat) :
    ∀ (reads : List ReadResult) (buffer : Nat → Nat) (st : Acc),
      readLoop cs reads buffer st
        = ⟨st.res ^^^ xorFold (fun i => process_chunk (bufferAfter cs buffer reads (i + 1)) cs)
              (leadingReads cs reads),
            st.calls ++ List.replicate (leadingReads cs reads) (0, cs)⟩ := by
  intro reads
  induction reads with
  | nil =>
    intro buffer st
    simp [readLoop, leadingReads, xorFold]
  | cons r rest ih =>
    intro buffer st
    simp only [readLoop, leadingReads, sysRead_fst]
    by_cases h : readRet r cs > 0
    · rw [if_pos h, if_pos h, ih, xorFold_succ_left]
      simp only [bufferAfter, Nat.xor_assoc, List.append_assoc, List.replicate_succ,
        List.singleton_append]
    · rw [if_neg h, if_neg h]
      simp [xorFold]

theorem bufferAfter_zero (cs : Nat) (b : Nat → Nat) (l : List ReadResult) :
    bufferAfter cs b l 0 = b := by
  cases l <;> rfl

theorem bufferAfter_succ (cs : Nat) :
    ∀ (l : List ReadResult) (b : Nat → Nat) (k : Nat) (h : k < l.length),
      bufferAfter cs b l (k + 1) = (sysRead (l.get ⟨k, h⟩) (bufferAfter cs b l k) cs).2 := by
  intro l
  induction l with
  | nil => intro b k h; simp at h
  | cons r rest ih =>
    intro b k h
    cases k with
    | zero => simp [bufferAfter]
    | succ k =>
      have hk : k < rest.length := by simpa using h
      simp only [bufferAfter, List.get_cons_succ]
      exact ih _ k hk

theorem bufferAfter_append (cs : Nat) :
    ∀ (pre post : List ReadResult) (b : Nat → Nat) (i : Nat), i < pre.length →
      bufferAfter cs b (pre ++ post) (i + 1) = bufferAfter cs b pre (i + 1) := by
  intro pre
  induction pre with
  | nil => intro post b i h; simp at h
  | cons x rest ih =>
    intro post b i h
    cases i with
    | zero => simp [bufferAfter]
    | succ i =>
      have hi : i < rest.length := by simpa using h
      simp only [List.cons_append, bufferAfter]
      exact ih post _ i hi

theorem leadingReads_all_pos (cs : Nat) :
    ∀ l : List ReadResult, (∀ r ∈ l, readRet r cs > 0) → leadingReads cs l = l.length := by
  intro l
  induction l with
  | nil => intro _; rfl
  | cons r rest ih =>
    intro h
    have h1 : readRet r cs > 0 := h r (by simp)
    simp only [leadingReads, if_pos h1, List.length_cons]
    rw [ih (fun x hx => h x (by simp [hx]))]

theorem fileReads_length (cs : Nat) (file : List Nat) :
    (fileReads cs file).length = numChunks cs file.length := by
  simp [fileReads, numChunks]

theorem fileReads_get (cs : Nat) (file : List Nat) (k : Nat)
    (h : k < (fileReads cs file).length) :
    (fileReads cs file).get ⟨k, h⟩ = ReadResult.bytes ((file.drop (k * cs)).take cs) := by
  simp [fileReads]

theorem leadingReads_fileReads (cs : Nat) (file : List Nat) (hcs : 0 < cs) :
    leadingReads cs (fileReads cs file) = numChunks cs file.length := by
  rw [leadingReads_all_pos, fileReads_length]
  intro r hr
  simp only [fileReads, List.mem_map, List.mem_range] at hr
  obtain ⟨k, hk, rfl⟩ := hr
  have hlt : k * cs < file.length := (lt_numChunks_iff cs file.length k hcs).mp hk
  simp only [readRet, sysRead, List.take_take, Nat.min_self, List.length_take,
    List.length_drop, gt_iff_lt]
  have : 0 < min cs (file.length - k * cs) := by
    apply Nat.lt_min.mpr
    exact ⟨hcs, by omega⟩
  exact_mod_cast this

theorem bufferAfter_fileReads (cs : Nat) (file : List Nat) (g : Nat → Nat) (k j : Nat)
    (hk : k < numChunks cs file.length) :
    bufferAfter cs g (fileReads cs file) (k + 1) j
      = if j < cs ∧ k * cs + j < file.length then file.getD (k * cs + j) 0
        else bufferAfter cs g (fileReads cs file) k j := by
  have hk1 : k < (fileReads cs file).length := by rw [fileReads_length]; exact hk
  rw [bufferAfter_succ cs _ g k hk1, fileReads_get]
  simp only [sysRead, List.take_take, Nat.min_self, List.getD_eq_getElem?_getD,
    List.getElem?_take, List.getElem?_drop]
  by_cases h1 : j < cs
  · by_cases h2 : k * cs + j < file.length
    · simp [h1, h2]
    · simp [h1, h2]
      rw [List.getElem?_eq_none (by omega)]
      rfl
  · simp [h1]

/-! ## Files whose size is a multiple of the chunk size -/

theorem readMethod_eq (cs : Nat) (env : Env) (ho : env.openOk = true) :
    readMethod cs env
      = ⟨[toLong (xorFold
            (fun i => process_chunk (bufferAfter cs env.garbage env.reads (i + 1)) cs)
            (leadingReads cs env.reads))], [],
          List.replicate (leadingReads cs env.reads) (0, cs), none⟩ := by
  simp [readMethod, ho, readLoop_eq]

theorem buffer_eq_window (cs : Nat) (file : List Nat) (g beyond : Nat → Nat) (k : Nat)
    (hfull : (k + 1) * cs ≤ file.length) (hcs : 0 < cs) :
    process_chunk (bufferAfter cs g (fileReads cs file) (k + 1)) cs
      = process_chunk (shift (mapped file beyond) (k * cs)) cs := by
  have hk : k < numChunks cs file.length := by
    rw [lt_numChunks_iff cs _ k hcs]
    rw [Nat.add_mul] at hfull
    omega
  apply process_chunk_congr
  intro j hj
  have h8 : 8 * (cs / 8) ≤ cs := Nat.mul_div_le cs 8
  have hj1 : j < cs := by omega
  have hj2 : k * cs + j < file.length := by
    rw [Nat.add_mul] at hfull
    omega
  rw [bufferAfter_fileReads cs file g k j hk, if_pos ⟨hj1, hj2⟩]
  simp only [shift, mapped]
  rw [List.getD_eq_getElem _ _ hj2, List.getD_eq_getElem _ _ hj2]

theorem readMethod_of_multiple (cs m : Nat) (file : List Nat) (g beyond : Nat → Nat)
    (hcs : 0 < cs) (hlen : file.length = m * cs) :
    readMethod cs (fileEnv cs file g beyond)
      = ⟨[toLong (xorFold
            (fun j => process_chunk (shift (mapped file beyond) (j * cs)) cs) m)], [],
          List.replicate m (0, cs), none⟩ := by
  rw [readMethod_eq cs _ rfl]
  simp only [fileEnv]
  rw [leadingReads_fileReads cs file hcs, hlen, numChunks_mul cs m hcs]
  congr 2
  congr 1
  apply xorFold_congr
  intro k hk
  apply buffer_eq_window cs file g beyond k _ hcs
  rw [hlen]
  exact Nat.mul_le_mul_right cs hk

theorem mmapMethod_of_multiple (cs m : Nat) (file : List Nat) (g beyond : Nat → Nat)
    (fuel : Nat) (hcs : 0 < cs) (hlen : file.length = m * cs)
    (hs : file.length + cs ≤ SIZE_MOD) (hf : m < fuel) :
    mmapMethod cs (fileEnv cs file g beyond) fuel
      = some ⟨[toLong (xorFold
            (fun j => process_chunk (shift (mapped file beyond) (j * cs)) cs) m)], [],
          windows cs m, none⟩ := by
  have hn : numChunks cs file.length = m := by rw [hlen, numChunks_mul cs m hcs]
  have := mmapMethod_eq cs (fileEnv cs file g beyond) fuel hcs hs
    (by simpa [fileEnv, hn] using hf) rfl rfl rfl
  simpa [fileEnv, hn] using this

theorem readMethod_env (cs : Nat) (env : Env) (ho : env.openOk = true)
    (hreads : env.reads = fileReads cs env.file) :
    readMethod cs env = readMethod cs (fileEnv cs env.file env.garbage env.beyond) := by
  simp [readMethod, fileEnv, ho, hreads]

theorem mmapMethod_env (cs : Nat) (env : Env) (fuel : Nat) (ho : env.openOk = true)
    (hst : env.fstatOk = true) (hm : env.mmapOk = true) :
    mmapMethod cs env fuel = mmapMethod cs (fileEnv cs env.file env.garbage env.beyond) fuel := by
  simp [mmapMethod, fileEnv, ho, hst, hm]

theorem mmapMethod_fails (cs : Nat) (env : Env) (fuel : Nat)
    (h : ¬ (env.openOk = true ∧ env.fstatOk = true ∧ env.mmapOk = true)) :
    ∃ p : Proc, mmapMethod cs env fuel = some p ∧ p.stdout = []
      ∧ p.status = some EXIT_FAILURE := by
  cases ho : env.openOk with
  | false => exact ⟨_, by simp [mmapMethod, ho]; rfl, rfl, rfl⟩
  | true =>
    cases hst : env.fstatOk with
    | false => exact ⟨_, by simp [mmapMethod, ho, hst]; rfl, rfl, rfl⟩
    | true =>
      cases hm : env.mmapOk with
      | false => exact ⟨_, by simp [mmapMethod, ho, hst, hm]; rfl, rfl, rfl⟩
      | true => exact absurd ⟨ho, hst, hm⟩ h

/-- C2. For every file whose size is an exact multiple of `CHUNK_SIZE` (and fits an `off_t`),
read by the Buffered Reader chunk by chunk, there is one integer `v` such that each of the
Buffered Reader, the Mapped Reader and the Optimized Mapped Reader runs to its end and either
prints `Result: v` or, when one of its system calls fails, prints no result and exits with a
failure status; when the system calls succeed all three print the same `Result:` integer,
whatever the scratch buffer held and whatever follows the mapping. -/
theorem strategies_agree_on_multiple (env : Env) (fuel : Nat)
    (hreads : env.reads = fileReads CHUNK_SIZE env.file)
    (hmul : env.file.length % CHUNK_SIZE = 0) (hsz : env.file.length < OFF_MAX)
    (hf : env.file.length / CHUNK_SIZE < fuel) :
    ∃ v : Int,
      ((readMethod CHUNK_SIZE env).stdout = [v]
        ∨ ((readMethod CHUNK_SIZE env).stdout = []
            ∧ (readMethod CHUNK_SIZE env).status = some EXIT_FAILURE))
      ∧ (∃ p : Proc, mmapMethod CHUNK_SIZE env fuel = some p
          ∧ (p.stdout = [v] ∨ (p.stdout = [] ∧ p.status = some EXIT_FAILURE)))
      ∧ (∃ p : Proc, mmapOptMethod CHUNK_SIZE env fuel = some p
          ∧ (p.stdout = [v] ∨ (p.stdout = [] ∧ p.status = some EXIT_FAILURE)))
      ∧ (env.openOk = true → env.fstatOk = true → env.mmapOk = true →
          (readMethod CHUNK_SIZE env).stdout = [v]
          ∧ (mmapMethod CHUNK_SIZE env fuel).map Proc.stdout = some [v]
          ∧ (mmapOptMethod CHUNK_SIZE env fuel).map Proc.stdout = some [v]) := by
  have hcs : 0 < CHUNK_SIZE := by decide
  have hlen : env.file.length = env.file.length / CHUNK_SIZE * CHUNK_SIZE :=
    (Nat.div_mul_cancel (Nat.dvd_of_mod_eq_zero hmul)).symm
  have hs : env.file.length + CHUNK_SIZE ≤ SIZE_MOD := size_bound _ _ hsz (by decide)
  have hread : env.openOk = true → (readMethod CHUNK_SIZE env).stdout
      = [toLong (xorFold (fun j => process_chunk
          (shift (mapped env.file env.beyond) (j * CHUNK_SIZE)) CHUNK_SIZE)
          (env.file.length / CHUNK_SIZE))] := by
    intro ho
    rw [readMethod_env CHUNK_SIZE env ho hreads,
      readMethod_of_multiple CHUNK_SIZE _ env.file env.garbage env.beyond hcs hlen]
  have hmap : env.openOk = true → env.fstatOk = true → env.mmapOk = true →
      mmapMethod CHUNK_SIZE env fuel
        = some ⟨[toLong (xorFold (fun j => process_chunk
            (shift (mapped env.file env.beyond) (j * CHUNK_SIZE)) CHUNK_SIZE)
            (env.file.length / CHUNK_SIZE))], [],
            windows CHUNK_SIZE (env.file.length / CHUNK_SIZE), none⟩ := by
    intro ho hst hm
    rw [mmapMethod_env CHUNK_SIZE env fuel ho hst hm,
      mmapMethod_of_multiple CHUNK_SIZE _ env.file env.garbage env.beyond fuel hcs hlen hs hf]
  have hmapAll : ∃ p : Proc, mmapMethod CHUNK_SIZE env fuel = some p
      ∧ (p.stdout = [toLong (xorFold (fun j => process_chunk
            (shift (mapped env.file env.beyond) (j * CHUNK_SIZE)) CHUNK_SIZE)
            (env.file.length / CHUNK_SIZE))]
          ∨ (p.stdout = [] ∧ p.status = some EXIT_FAILURE)) := by
    by_cases h : env.openOk = true ∧ env.fstatOk = true ∧ env.mmapOk = true
    · exact ⟨_, hmap h.1 h.2.1 h.2.2, Or.inl rfl⟩
    · obtain ⟨p, hp, h1, h2⟩ := mmapMethod_fails CHUNK_SIZE env fuel h
      exact ⟨p, hp, Or.inr ⟨h1, h2⟩⟩
  refine ⟨_, ?_, hmapAll, ?_, ?_⟩
  · cases ho : env.openOk with
    | false => right; simp [readMethod, ho]
    | true => left; exact hread ho
  · rw [mmapOptMethod_eq_mmapMethod]; exact hmapAll
  · intro ho hst hm
    refine ⟨hread ho, ?_, ?_⟩
    · rw [hmap ho hst hm]; rfl
    · rw [mmapOptMethod_eq_mmapMethod, hmap ho hst hm]; rfl

/-! ## Windows as ranges of words -/

theorem loadBytes_shift (data : Nat → Nat) (off n : Nat) :
    ∀ a, loadBytes (shift data off) a n = loadBytes data (off + a) n := by
  induction n with
  | zero => intro a; rfl
  | succ n ih =>
    intro a
    simp only [loadBytes]
    rw [ih (a + 1)]
    simp only [shift, Nat.add_assoc]

theorem loadLong_shift (data : Nat → Nat) (k i : Nat) :
    loadLong (shift data (8 * k)) i = loadLong data (k + i) := by
  simp only [loadLong]
  rw [loadBytes_shift, Nat.mul_add]

theorem xorFold_mul (f : Nat → Nat) (n m : Nat) :
    xorFold (fun j => xorFold (fun i => f (j * n + i)) n) m = xorFold f (m * n) := by
  induction m with
  | zero => simp [xorFold]
  | succ m ih =>
    have h : xorFold f ((m + 1) * n) = xorFold f (m * n) ^^^ xorFold (fun i => f (m * n + i)) n := by
      rw [Nat.add_mul, Nat.one_mul, xorFold_add]
    rw [h, ← ih]
    rfl

theorem process_chunk_window (data : Nat → Nat) (n j : Nat) :
    process_chunk (shift data (j * (8 * n))) (8 * n)
      = xorFold (fun i => loadLong data (j * n + i)) n := by
  rw [process_chunk_eq, Nat.mul_div_cancel_left n (by decide : 0 < 8)]
  have : j * (8 * n) = 8 * (j * n) := by ring
  rw [this]
  apply xorFold_congr
  intro i _
  exact loadLong_shift data (j * n) i

theorem xor_windows_eq_whole (data : Nat → Nat) (n m : Nat) :
    xorFold (fun j => process_chunk (shift data (j * (8 * n))) (8 * n)) m
      = process_chunk data (m * (8 * n)) := by
  rw [process_chunk_eq]
  have h1 : m * (8 * n) / 8 = m * n := by
    have : m * (8 * n) = 8 * (m * n) := by ring
    rw [this, Nat.mul_div_cancel_left _ (by decide : 0 < 8)]
  rw [h1, ← xorFold_mul]
  apply xorFold_congr
  intro j _
  exact process_chunk_window data n j

theorem readMethod_whole (n m : Nat) (file : List Nat) (g beyond : Nat → Nat)
    (hn : 0 < n) (hlen : file.length = m * (8 * n)) :
    readMethod (8 * n) (fileEnv (8 * n) file g beyond)
      = ⟨[toLong (process_chunk (mapped file beyond) file.length)], [],
          List.replicate m (0, 8 * n), none⟩ := by
  rw [readMethod_of_multiple (8 * n) m file g beyond (by omega) hlen, xor_windows_eq_whole, hlen]

theorem mmapMethod_whole (n m : Nat) (file : List Nat) (g beyond : Nat → Nat) (fuel : Nat)
    (hn : 0 < n) (hlen : file.length = m * (8 * n))
    (hs : file.length + 8 * n ≤ SIZE_MOD) (hf : m < fuel) :
    mmapMethod (8 * n) (fileEnv (8 * n) file g beyond) fuel
      = some ⟨[toLong (process_chunk (mapped file beyond) file.length)], [],
          windows (8 * n) m, none⟩ := by
  rw [mmapMethod_of_multiple (8 * n) m file g beyond fuel (by omega) hlen hs hf,
    xor_windows_eq_whole, hlen]

/-! ## A file made of one repeated word -/

theorem mapped_wordFile (w n : Nat) (beyond : Nat → Nat) (a : Nat) (h : a < 8 * n) :
    mapped (wordFile w n) beyond a = w / 256 ^ (a % 8) % 256 := by
  simp only [mapped, wordFile]
  rw [List.getD_eq_getElem _ _ (by simpa using h)]
  simp

theorem loadLong_wordFile (w n : Nat) (beyond : Nat → Nat) (i : Nat) (h : i < n) :
    loadLong (mapped (wordFile w n) beyond) i = w % 2 ^ 64 := by
  simp only [loadLong, loadBytes]
  rw [mapped_wordFile w n beyond (8 * i) (by omega),
    mapped_wordFile w n beyond (8 * i + 1) (by omega),
    mapped_wordFile w n beyond (8 * i + 1 + 1) (by omega),
    mapped_wordFile w n beyond (8 * i + 1 + 1 + 1) (by omega),
    mapped_wordFile w n beyond (8 * i + 1 + 1 + 1 + 1) (by omega),
    mapped_wordFile w n beyond (8 * i + 1 + 1 + 1 + 1 + 1) (by omega),
    mapped_wordFile w n beyond (8 * i + 1 + 1 + 1 + 1 + 1 + 1) (by omega),
    mapped_wordFile w n beyond (8 * i + 1 + 1 + 1 + 1 + 1 + 1 + 1) (by omega)]
  have e0 : 8 * i % 8 = 0 := by omega
  have e1 : (8 * i + 1) % 8 = 1 := by omega
  have e2 : (8 * i + 1 + 1) % 8 = 2 := by omega
  have e3 : (8 * i + 1 + 1 + 1) % 8 = 3 := by omega
  have e4 : (8 * i + 1 + 1 + 1 + 1) % 8 = 4 := by omega
  have e5 : (8 * i + 1 + 1 + 1 + 1 + 1) % 8 = 5 := by omega
  have e6 : (8 * i + 1 + 1 + 1 + 1 + 1 + 1) % 8 = 6 := by omega
  have e7 : (8 * i + 1 + 1 + 1 + 1 + 1 + 1 + 1) % 8 = 7 := by omega
  rw [e0, e1, e2, e3, e4, e5, e6, e7]
  norm_num
  omega

theorem process_chunk_wordFile (w n : Nat) (beyond : Nat → Nat) :
    process_chunk (mapped (wordFile w n) beyond) (wordFile w n).length
      = if n % 2 = 0 then 0 else w % 2 ^ 64 := by
  have hl : (wordFile w n).length = 8 * n := by simp [wordFile]
  rw [process_chunk_eq, hl, Nat.mul_div_cancel_left n (by decide : 0 < 8),
    xorFold_congr _ (fun _ => w % 2 ^ 64) n (fun i hi => loadLong_wordFile w n beyond i hi),
    xorFold_const]

/-- C6. For a file of exactly `cs` bytes (`cs` the chunk size, a positive multiple of 8 that fits
an `off_t`, such as `CHUNK_SIZE`) made of one 64-bit word repeated `N = cs / 8` times, all three
strategies print `0` when the word is `0`, and when the word is `1` they print `0` if `N` is
even and `1` if `N` is odd. -/
theorem repeated_word_file (cs w : Nat) (garbage beyond : Nat → Nat) (fuel : Nat)
    (hcs : 0 < cs) (h8 : cs % 8 = 0) (hmax : cs < OFF_MAX) (hw : w = 0 ∨ w = 1)
    (hf : 1 < fuel) :
    (readMethod cs (fileEnv cs (wordFile w (cs / 8)) garbage beyond)).stdout
        = [if w = 0 then 0 else if (cs / 8) % 2 = 0 then 0 else 1]
    ∧ (mmapMethod cs (fileEnv cs (wordFile w (cs / 8)) garbage beyond) fuel).map Proc.stdout
        = some [if w = 0 then 0 else if (cs / 8) % 2 = 0 then 0 else 1]
    ∧ (mmapOptMethod cs (fileEnv cs (wordFile w (cs / 8)) garbage beyond) fuel).map Proc.stdout
        = some [if w = 0 then 0 else if (cs / 8) % 2 = 0 then 0 else 1] := by
  obtain ⟨n, rfl⟩ : ∃ n, cs = 8 * n := ⟨cs / 8, by omega⟩
  have hn : 0 < n := by omega
  rw [Nat.mul_div_cancel_left n (by decide : 0 < 8)]
  have hlen : (wordFile w n).length = 1 * (8 * n) := by simp [wordFile]
  have hs : (wordFile w n).length + 8 * n ≤ SIZE_MOD :=
    size_bound _ _ (by rw [hlen]; omega) (by omega)
  have hv : toLong (process_chunk (mapped (wordFile w n) beyond) (wordFile w n).length)
      = if w = 0 then 0 else if n % 2 = 0 then 0 else 1 := by
    rw [process_chunk_wordFile]
    rcases hw with rfl | rfl
    · by_cases h : n % 2 = 0 <;> simp [h, toLong]
    · by_cases h : n % 2 = 0 <;> simp [h, toLong]
  refine ⟨?_, ?_, ?_⟩
  · rw [readMethod_whole n 1 _ garbage beyond hn hlen, hv]
  · rw [mmapMethod_whole n 1 _ garbage beyond fuel hn hlen hs hf]
    simp only [Option.map_some']
    rw [hv]
  · rw [mmapOptMethod_eq_mmapMethod, mmapMethod_whole n 1 _ garbage beyond fuel hn hlen hs hf]
    simp only [Option.map_some']
    rw [hv]

theorem repeated_word_file_witness :
    (0 < CHUNK_SIZE ∧ CHUNK_SIZE % 8 = 0 ∧ CHUNK_SIZE < OFF_MAX ∧ ((1 : Nat) = 0 ∨ (1 : Nat) = 1)
      ∧ 1 < 2)
    ∧ ((readMethod CHUNK_SIZE
          (fileEnv CHUNK_SIZE (wordFile 1 (CHUNK_SIZE / 8)) (fun _ => 7) (fun _ => 9))).stdout
        = [if (1 : Nat) = 0 then 0 else if (CHUNK_SIZE / 8) % 2 = 0 then 0 else 1]
    ∧ (mmapMethod CHUNK_SIZE
          (fileEnv CHUNK_SIZE (wordFile 1 (CHUNK_SIZE / 8)) (fun _ => 7) (fun _ => 9)) 2).map
            Proc.stdout
        = some [if (1 : Nat) = 0 then 0 else if (CHUNK_SIZE / 8) % 2 = 0 then 0 else 1]
    ∧ (mmapOptMethod CHUNK_SIZE
          (fileEnv CHUNK_SIZE (wordFile 1 (CHUNK_SIZE / 8)) (fun _ => 7) (fun _ => 9)) 2).map
            Proc.stdout
        = some [if (1 : Nat) = 0 then 0 else if (CHUNK_SIZE / 8) % 2 = 0 then 0 else 1]) :=
  ⟨⟨by decide, by decide, by decide, Or.inr rfl, by decide⟩,
    repeated_word_file CHUNK_SIZE 1 (fun _ => 7) (fun _ => 9) 2
      (by decide) (by decide) (by decide) (Or.inr rfl) (by decide)⟩

theorem strategies_agree_on_multiple_witness :
    (sampleFullEnv.reads = fileReads CHUNK_SIZE sampleFullEnv.file
      ∧ sampleFullEnv.file.length % CHUNK_SIZE = 0
      ∧ sampleFullEnv.file.length < OFF_MAX
      ∧ sampleFullEnv.file.length / CHUNK_SIZE < 2)
    ∧ ∃ v : Int,
      ((readMethod CHUNK_SIZE sampleFullEnv).stdout = [v]
        ∨ ((readMethod CHUNK_SIZE sampleFullEnv).stdout = []
            ∧ (readMethod CHUNK_SIZE sampleFullEnv).status = some EXIT_FAILURE))
      ∧ (∃ p : Proc, mmapMethod CHUNK_SIZE sampleFullEnv 2 = some p
          ∧ (p.stdout = [v] ∨ (p.stdout = [] ∧ p.status = some EXIT_FAILURE)))
      ∧ (∃ p : Proc, mmapOptMethod CHUNK_SIZE sampleFullEnv 2 = some p
          ∧ (p.stdout = [v] ∨ (p.stdout = [] ∧ p.status = some EXIT_FAILURE)))
      ∧ (sampleFullEnv.openOk = true → sampleFullEnv.fstatOk = true →
          sampleFullEnv.mmapOk = true →
          (readMethod CHUNK_SIZE sampleFullEnv).stdout = [v]
          ∧ (mmapMethod CHUNK_SIZE sampleFullEnv 2).map Proc.stdout = some [v]
          ∧ (mmapOptMethod CHUNK_SIZE sampleFullEnv 2).map Proc.stdout = some [v]) :=
  have hl : sampleFullEnv.file.length = CHUNK_SIZE := by
    rw [sampleFullEnv, fileEnv_file, wordFile_length]
    decide
  have h1 : sampleFullEnv.file.length % CHUNK_SIZE = 0 := by rw [hl]; decide
  have h2 : sampleFullEnv.file.length < OFF_MAX := by rw [hl]; decide
  have h3 : sampleFullEnv.file.length / CHUNK_SIZE < 2 := by rw [hl]; decide
  have h0 : sampleFullEnv.reads = fileReads CHUNK_SIZE sampleFullEnv.file :=
    fileEnv_reads CHUNK_SIZE (wordFile 5 (CHUNK_SIZE / 8)) (fun _ => 7) (fun _ => 9)
  ⟨⟨h0, h1, h2, h3⟩, strategies_agree_on_multiple sampleFullEnv 2 h0 h1 h2 h3⟩

/-! ## Independence of the chunk size -/

theorem methods_print_whole (file : List Nat) (g beyond : Nat → Nat) (c fuel : Nat)
    (hc : 0 < c) (h8 : c % 8 = 0) (hdiv : file.length % c = 0) (hsz : file.length < OFF_MAX)
    (hcm : c < OFF_MAX) (hf : file.length / c < fuel) :
    (readMethod c (fileEnv c file g beyond)).stdout
        = [toLong (process_chunk (mapped file beyond) file.length)]
    ∧ (mmapMethod c (fileEnv c file g beyond) fuel).map Proc.stdout
        = some [toLong (process_chunk (mapped file beyond) file.length)]
    ∧ (mmapOptMethod c (fileEnv c file g beyond) fuel).map Proc.stdout
        = some [toLong (process_chunk (mapped file beyond) file.length)] := by
  obtain ⟨n, rfl⟩ : ∃ n, c = 8 * n := ⟨c / 8, by omega⟩
  have hn : 0 < n := by omega
  have hlen : file.length = file.length / (8 * n) * (8 * n) :=
    (Nat.div_mul_cancel (Nat.dvd_of_mod_eq_zero hdiv)).symm
  have hs : file.length + 8 * n ≤ SIZE_MOD := size_bound _ _ hsz (by omega)
  refine ⟨?_, ?_, ?_⟩
  · rw [readMethod_whole n _ file g beyond hn hlen]
  · rw [mmapMethod_whole n _ file g beyond fuel hn hlen hs hf]
    rfl
  · rw [mmapOptMethod_eq_mmapMethod, mmapMethod_whole n _ file g beyond fuel hn hlen hs hf]
    rfl

/-- C10. The chunked accumulation does not depend on the chunk size: for every file and every
chunk size `c` that is a positive multiple of 8 and divides the file size, the XOR of
`process_chunk` over the consecutive `c`-byte chunks of the file equals `process_chunk` applied
once to the whole file, and this is what each of the three strategies prints when run with chunk
size `c`; hence on a file whose size is a multiple of 1 MiB the settings `1 << 20` and `1 << 14`
of `CHUNK_SIZE` make every strategy print the same integer. -/
theorem chunk_size_independence (file : List Nat) (beyond : Nat → Nat) (c : Nat)
    (hc : 0 < c) (h8 : c % 8 = 0) (hdiv : file.length % c = 0) :
    xorFold (fun j => process_chunk (shift (mapped file beyond) (j * c)) c) (file.length / c)
        = process_chunk (mapped file beyond) file.length
    ∧ (∀ (g : Nat → Nat) (fuel : Nat), file.length < OFF_MAX → c < OFF_MAX →
        file.length / c < fuel →
        (readMethod c (fileEnv c file g beyond)).stdout
            = [toLong (process_chunk (mapped file beyond) file.length)]
        ∧ (mmapMethod c (fileEnv c file g beyond) fuel).map Proc.stdout
            = some [toLong (process_chunk (mapped file beyond) file.length)]
        ∧ (mmapOptMethod c (fileEnv c file g beyond) fuel).map Proc.stdout
            = some [toLong (process_chunk (mapped file beyond) file.length)])
    ∧ (∀ (g1 g2 : Nat → Nat) (fuel1 fuel2 : Nat), file.length % CHUNK_SIZE = 0 →
        file.length < OFF_MAX → file.length / CHUNK_SIZE < fuel1 →
        file.length / CHUNK_SIZE_16KiB < fuel2 →
        (readMethod CHUNK_SIZE (fileEnv CHUNK_SIZE file g1 beyond)).stdout
            = (readMethod CHUNK_SIZE_16KiB (fileEnv CHUNK_SIZE_16KiB file g2 beyond)).stdout
        ∧ (mmapMethod CHUNK_SIZE (fileEnv CHUNK_SIZE file g1 beyond) fuel1).map Proc.stdout
            = (mmapMethod CHUNK_SIZE_16KiB (fileEnv CHUNK_SIZE_16KiB file g2 beyond) fuel2).map
                Proc.stdout
        ∧ (mmapOptMethod CHUNK_SIZE (fileEnv CHUNK_SIZE file g1 beyond) fuel1).map Proc.stdout
            = (mmapOptMethod CHUNK_SIZE_16KiB (fileEnv CHUNK_SIZE_16KiB file g2 beyond)
                fuel2).map Proc.stdout
        ∧ (mmapMethod CHUNK_SIZE (fileEnv CHUNK_SIZE file g1 beyond) fuel1).map Proc.stdout
            = some [toLong (process_chunk (mapped file beyond) file.length)]) := by
  refine ⟨?_, ?_, ?_⟩
  · obtain ⟨n, rfl⟩ : ∃ n, c = 8 * n := ⟨c / 8, by omega⟩
    have hlen : file.length / (8 * n) * (8 * n) = file.length :=
      Nat.div_mul_cancel (Nat.dvd_of_mod_eq_zero hdiv)
    rw [xor_windows_eq_whole, hlen]
  · intro g fuel hsz hcm hf
    exact methods_print_whole file g beyond c fuel hc h8 hdiv hsz hcm hf
  · intro g1 g2 fuel1 fuel2 hmul hsz hf1 hf2
    have hmul2 : file.length % CHUNK_SIZE_16KiB = 0 := by
      have h1 : CHUNK_SIZE = 1048576 := by decide
      have h2 : CHUNK_SIZE_16KiB = 16384 := by decide
      rw [h1] at hmul
      rw [h2]
      omega
    have a := methods_print_whole file g1 beyond CHUNK_SIZE fuel1 (by decide) (by decide) hmul
      hsz (by decide) hf1
    have b := methods_print_whole file g2 beyond CHUNK_SIZE_16KiB fuel2 (by decide) (by decide)
      hmul2 hsz (by decide) hf2
    exact ⟨a.1.trans b.1.symm, a.2.1.trans b.2.1.symm, a.2.2.trans b.2.2.symm, a.2.1⟩

theorem chunk_size_independence_witness :
    (0 < 16 ∧ 16 % 8 = 0 ∧ (wordFile 3 4).length % 16 = 0)
    ∧ (xorFold (fun j => process_chunk (shift (mapped (wordFile 3 4) (fun _ => 9)) (j * 16)) 16)
          ((wordFile 3 4).length / 16)
        = process_chunk (mapped (wordFile 3 4) (fun _ => 9)) (wordFile 3 4).length) :=
  ⟨⟨by decide, by decide, by decide⟩,
    (chunk_size_independence (wordFile 3 4) (fun _ => 9) 16 (by decide) (by decide)
      (by decide)).1⟩

/-! ## The buffered reader on arbitrary reads and on a file with a short tail -/

theorem leadingReads_append_stop (cs : Nat) (r : ReadResult) (post : List ReadResult)
    (hr : readRet r cs ≤ 0) :
    ∀ pre : List ReadResult, (∀ x ∈ pre, readRet x cs > 0) →
      leadingReads cs (pre ++ r :: post) = pre.length := by
  intro pre
  induction pre with
  | nil =>
    intro _
    have : ¬ readRet r cs > 0 := by omega
    simp [leadingReads, this]
  | cons x rest ih =>
    intro h
    have h1 : readRet x cs > 0 := h x (by simp)
    have e : leadingReads cs (x :: (rest ++ r :: post))
        = leadingReads cs (rest ++ r :: post) + 1 := by
      simp only [leadingReads, if_pos h1]
    rw [List.cons_append, e, ih (fun y hy => h y (by simp [hy])), List.length_cons]

theorem stale_tail_getD (file : List Nat) (k cs r j d : Nat) (hk : 1 ≤ k)
    (hlen : file.length = k * cs + r) (hj : j < cs) :
    (file.drop (k * cs) ++ ((file.drop ((k - 1) * cs)).take cs).drop r).getD j d
      = if k * cs + j < file.length then file.getD (k * cs + j) 0
        else file.getD ((k - 1) * cs + j) 0 := by
  have hl : (file.drop (k * cs)).length = r := by simp [hlen]
  by_cases h : j < r
  · have hin : k * cs + j < file.length := by omega
    rw [if_pos hin, List.getD_append _ _ _ _ (by omega)]
    simp only [List.getD_eq_getElem?_getD, List.getElem?_drop]
    rw [List.getElem?_eq_getElem hin]
    rfl
  · have hout : ¬ k * cs + j < file.length := by omega
    rw [if_neg hout, List.getD_append_right _ _ _ _ (by omega), hl]
    obtain ⟨k1, rfl⟩ : ∃ k1, k = k1 + 1 := ⟨k - 1, by omega⟩
    have hin : k1 * cs + j < file.length := by rw [hlen, Nat.add_mul]; omega
    simp only [Nat.add_sub_cancel, List.getD_eq_getElem?_getD, List.getElem?_drop,
      List.getElem?_take]
    have e : r + (j - r) = j := by omega
    rw [e, if_pos hj, List.getElem?_eq_getElem hin]
    rfl

theorem buffer_short_tail (cs : Nat) (file : List Nat) (g beyond : Nat → Nat) (k r : Nat)
    (hk : 1 ≤ k) (hr : 0 < r) (hrc : r < cs) (hlen : file.length = k * cs + r) :
    process_chunk (bufferAfter cs g (fileReads cs file) (k + 1)) cs
      = process_chunk
          (mapped (file.drop (k * cs) ++ ((file.drop ((k - 1) * cs)).take cs).drop r) beyond)
          cs := by
  have hcs : 0 < cs := by omega
  have hk0 : k < numChunks cs file.length := by
    rw [lt_numChunks_iff cs _ k hcs]; omega
  apply process_chunk_congr
  intro j hj
  have h8 : 8 * (cs / 8) ≤ cs := Nat.mul_div_le cs 8
  have hj1 : j < cs := by omega
  rw [bufferAfter_fileReads cs file g k j hk0]
  simp only [mapped]
  rw [stale_tail_getD file k cs r j _ hk hlen hj1]
  by_cases h : k * cs + j < file.length
  · rw [if_pos ⟨hj1, h⟩, if_pos h]
  · have : ¬ (j < cs ∧ k * cs + j < file.length) := fun hh => h hh.2
    rw [if_neg this, if_neg h]
    obtain ⟨k1, rfl⟩ : ∃ k1, k = k1 + 1 := ⟨k - 1, by omega⟩
    have hk1 : k1 < numChunks cs file.length := by omega
    have hin : k1 * cs + j < file.length := by rw [hlen, Nat.add_mul]; omega
    rw [bufferAfter_fileReads cs file g k1 j hk1, if_pos ⟨hj1, hin⟩]
    simp

/-- C8. For every sequence of `read` results, the Buffered Reader prints, and returns normally,
the XOR over the reads that return more than `0` before the first one returning `0` or a negative
value, of `process_chunk` applied to the whole scratch buffer of `cs` bytes as it stands after that
read; a read returning `0` or a negative value ends the loop and the accumulator reached is still
printed.  In particular, for a file of `k * cs + r` bytes with `1 ≤ k` and `0 < r < cs` read in
full chunks, the terms are the `k` full chunks of the file and a last term that reduces the `r`
tail bytes followed by the last `cs - r` bytes of the preceding chunk. -/
theorem buffered_reader_accumulator (cs : Nat) (env : Env) (ho : env.openOk = true) :
    readMethod cs env
        = ⟨[toLong (xorFold
              (fun i => process_chunk (bufferAfter cs env.garbage env.reads (i + 1)) cs)
              (leadingReads cs env.reads))], [],
            List.replicate (leadingReads cs env.reads) (0, cs), none⟩
    ∧ (∀ (pre post : List ReadResult) (r : ReadResult), env.reads = pre ++ r :: post →
        (∀ x ∈ pre, readRet x cs > 0) → readRet r cs ≤ 0 →
        leadingReads cs env.reads = pre.length
        ∧ (∀ i, i < pre.length →
            bufferAfter cs env.garbage env.reads (i + 1)
              = bufferAfter cs env.garbage pre (i + 1)))
    ∧ (∀ (file : List Nat) (g beyond : Nat → Nat) (k r : Nat), 1 ≤ k → 0 < r → r < cs →
        file.length = k * cs + r →
        (readMethod cs (fileEnv cs file g beyond)).stdout
          = [toLong (xorFold (fun i => process_chunk (shift (mapped file beyond) (i * cs)) cs) k
              ^^^ process_chunk
                (mapped (file.drop (k * cs) ++ ((file.drop ((k - 1) * cs)).take cs).drop r)
                  beyond) cs)]) := by
  refine ⟨readMethod_eq cs env ho, ?_, ?_⟩
  · intro pre post r hreads hpre hr
    rw [hreads]
    refine ⟨leadingReads_append_stop cs r post hr pre hpre, ?_⟩
    intro i hi
    exact bufferAfter_append cs _ _ _ _ hi
  · intro file g beyond k r hk hr hrc hlen
    have hcs : 0 < cs := by omega
    rw [readMethod_eq cs _ rfl]
    simp only [fileEnv]
    have hn : numChunks cs file.length = k + 1 := by
      apply Nat.le_antisymm
      · by_contra h
        have h1 : k + 1 < numChunks cs file.length := by omega
        have := (lt_numChunks_iff cs _ (k + 1) hcs).mp h1
        rw [Nat.add_mul] at this
        omega
      · have : k < numChunks cs file.length := by
          rw [lt_numChunks_iff cs _ k hcs]; omega
        omega
    rw [leadingReads_fileReads cs file hcs, hn]
    simp only [xorFold]
    rw [buffer_short_tail cs file g beyond k r hk hr hrc hlen]
    congr 3
    apply xorFold_congr
    intro i hi
    apply buffer_eq_window cs file g beyond i _ hcs
    rw [hlen]
    have : (i + 1) * cs ≤ k * cs := Nat.mul_le_mul_right cs hi
    omega

/-! ## The mapped reader on a file of any size -/

/-- C7. For an empty file, the loop body of the Mapped Reader and of the Optimized Mapped Reader
never executes: the run makes no call of `process_chunk`, and it ends either with the accumulator
`0` printed, or with one fatal error message, a failure status and no result; once `open` and
`fstat` have succeeded, the first happens when the zero-length `mmap` succeeds and the second,
with the error of `mmap`, when it does not. -/
theorem empty_file_mapped (cs : Nat) (env : Env) (fuel : Nat) (hempty : env.file = [])
    (hf : 0 < fuel) :
    ∃ p : Proc, mmapMethod cs env fuel = some p ∧ mmapOptMethod cs env fuel = some p
      ∧ p.calls = []
      ∧ ((p.stdout = [0] ∧ p.stderr = [] ∧ p.status = none)
          ∨ (p.stdout = [] ∧ (∃ msg, p.stderr = [msg]) ∧ p.status = some EXIT_FAILURE))
      ∧ (env.openOk = true → env.fstatOk = true →
          (env.mmapOk = true → p.stdout = [0] ∧ p.stderr = [] ∧ p.status = none)
          ∧ (env.mmapOk = false →
              p.stdout = [] ∧ p.stderr = ["Error mmapping the file"]
              ∧ p.status = some EXIT_FAILURE)) := by
  obtain ⟨fuel, rfl⟩ : ∃ f, fuel = f + 1 := ⟨fuel - 1, by omega⟩
  cases ho : env.openOk with
  | false =>
    refine ⟨⟨[], ["Error opening file"], [], some EXIT_FAILURE⟩, ?_, ?_, rfl,
      Or.inr ⟨rfl, ⟨_, rfl⟩, rfl⟩, ?_⟩
    · simp [mmapMethod, ho]
    · simp [mmapOptMethod, ho]
    · intro h; simp at h
  | true =>
    cases hst : env.fstatOk with
    | false =>
      refine ⟨⟨[], ["Error getting file size"], [], some EXIT_FAILURE⟩, ?_, ?_, rfl,
        Or.inr ⟨rfl, ⟨_, rfl⟩, rfl⟩, ?_⟩
      · simp [mmapMethod, ho, hst]
      · simp [mmapOptMethod, ho, hst]
      · intro _ h; simp at h
    | true =>
      cases hm : env.mmapOk with
      | false =>
        refine ⟨⟨[], ["Error mmapping the file"], [], some EXIT_FAILURE⟩, ?_, ?_, rfl,
          Or.inr ⟨rfl, ⟨_, rfl⟩, rfl⟩, ?_⟩
        · simp [mmapMethod, ho, hst, hm]
        · simp [mmapOptMethod, ho, hst, hm]
        · intro _ _
          exact ⟨fun h => by simp at h, fun _ => ⟨rfl, rfl, rfl⟩⟩
      | true =>
        refine ⟨⟨[0], [], [], none⟩, ?_, ?_, rfl, Or.inl ⟨rfl, rfl, rfl⟩, ?_⟩
        · simp [mmapMethod, ho, hst, hm, hempty, mmapLoop, toLong]
        · simp [mmapOptMethod, ho, hst, hm, hempty, mmapLoop, toLong]
        · intro _ _
          exact ⟨fun _ => ⟨rfl, rfl, rfl⟩, fun h => by simp at h⟩

theorem empty_file_mapped_witness :
    (sampleEmptyEnv.file = [] ∧ 0 < 1)
    ∧ ∃ p : Proc, mmapMethod CHUNK_SIZE sampleEmptyEnv 1 = some p
      ∧ mmapOptMethod CHUNK_SIZE sampleEmptyEnv 1 = some p
      ∧ p.calls = []
      ∧ ((p.stdout = [0] ∧ p.stderr = [] ∧ p.status = none)
          ∨ (p.stdout = [] ∧ (∃ msg, p.stderr = [msg]) ∧ p.status = some EXIT_FAILURE))
      ∧ (sampleEmptyEnv.openOk = true → sampleEmptyEnv.fstatOk = true →
          (sampleEmptyEnv.mmapOk = true → p.stdout = [0] ∧ p.stderr = [] ∧ p.status = none)
          ∧ (sampleEmptyEnv.mmapOk = false →
              p.stdout = [] ∧ p.stderr = ["Error mmapping the file"]
              ∧ p.status = some EXIT_FAILURE)) :=
  ⟨⟨rfl, by decide⟩, empty_file_mapped CHUNK_SIZE sampleEmptyEnv 1 rfl (by decide)⟩

/-! ## Exit status of the program -/

theorem xorFold_single (f : Nat → Nat) (a : Nat) :
    ∀ n, a < n → (∀ i, i < n → i ≠ a → f i = 0) → xorFold f n = f a := by
  intro n
  induction n with
  | zero => intro h; omega
  | succ n ih =>
    intro ha h
    simp only [xorFold]
    by_cases hn : a = n
    · subst hn
      rw [xorFold_zero_fun f a (fun i hi => h i (by omega) (by omega)), Nat.zero_xor]
    · rw [ih (by omega) (fun i hi hne => h i (by omega) hne), h n (by omega) (by omega),
        Nat.xor_zero]

theorem loadLong_zero (m : Nat → Nat) (i : Nat) (h : ∀ t, t < 8 → m (8 * i + t) = 0) :
    loadLong m i = 0 := by
  rw [loadLong_congr m (fun _ => 0) i h]
  simp [loadLong, loadBytes]

theorem loadLong_one (m : Nat → Nat) (i : Nat) (h1 : m (8 * i) = 1)
    (h : ∀ t, 0 < t → t < 8 → m (8 * i + t) = 0) : loadLong m i = 1 := by
  have hc : ∀ t, t < 8 → m (8 * i + t) = (fun p => if p = 8 * i then 1 else 0) (8 * i + t) := by
    intro t ht
    by_cases h0 : t = 0
    · subst h0; simpa using h1
    · rw [h t (by omega) ht]
      simp [h0]
  rw [loadLong_congr m (fun p => if p = 8 * i then 1 else 0) i hc]
  simp only [loadLong, loadBytes]
  rw [if_pos trivial, if_neg (by omega), if_neg (by omega), if_neg (by omega), if_neg (by omega),
    if_neg (by omega), if_neg (by omega), if_neg (by omega)]

theorem process_chunk_zero (m : Nat → Nat) (size : Nat) (h : ∀ p, p < size → m p = 0) :
    process_chunk m size = 0 := by
  rw [process_chunk_eq]
  apply xorFold_zero_fun
  intro i hi
  apply loadLong_zero
  intro t ht
  have h8 : 8 * (size / 8) ≤ size := Nat.mul_div_le size 8
  exact h _ (by omega)

theorem process_chunk_single (m : Nat → Nat) (size a : Nat) (ha : 8 * a + 8 ≤ size)
    (h1 : m (8 * a) = 1) (h0 : ∀ p, p < size → p ≠ 8 * a → m p = 0) :
    process_chunk m size = 1 := by
  have h8 : 8 * (size / 8) ≤ size := Nat.mul_div_le size 8
  have hlt : a < size / 8 := by
    rw [Nat.lt_iff_add_one_le, Nat.le_div_iff_mul_le (by decide : 0 < 8)]
    omega
  rw [process_chunk_eq, xorFold_single _ a _ hlt]
  · exact loadLong_one m a h1 (fun t ht0 ht => h0 _ (by omega) (by omega))
  · intro i hi hne
    exact loadLong_zero m i (fun t ht => h0 _ (by omega) (by omega))

theorem numChunks_one (cs : Nat) (hcs : 0 < cs) : numChunks cs 1 = 1 := by
  have := numChunks_mul cs 1 hcs
  have h : numChunks cs cs = 1 := by simpa using this
  unfold numChunks at h ⊢
  have e : 1 + cs - 1 = cs := by omega
  rw [e]
  exact Nat.div_self hcs

theorem readMethod_short_file (cs : Nat) (b : Nat) (g beyond : Nat → Nat) (hcs : 1 < cs) :
    (readMethod cs (fileEnv cs [b] g beyond)).stdout
      = [toLong (process_chunk (fun j => if j < 1 then b else g j) cs)] := by
  have hn : numChunks cs [b].length = 1 := numChunks_one cs (by omega)
  rw [readMethod_eq cs _ rfl]
  simp only [fileEnv]
  rw [leadingReads_fileReads cs _ (by omega), hn]
  simp only [xorFold, Nat.zero_xor]
  congr 2
  apply process_chunk_congr
  intro j hj
  have h8 : 8 * (cs / 8) ≤ cs := Nat.mul_div_le cs 8
  rw [bufferAfter_fileReads cs [b] g 0 j (by omega)]
  by_cases h : j < 1
  · have hj0 : j = 0 := by omega
    subst hj0
    rw [if_pos ⟨by omega, by simp⟩, if_pos h]
    simp
  · have hno : ¬ (j < cs ∧ 0 * cs + j < [b].length) := by
      intro hh
      have := hh.2
      simp at this
      omega
    rw [if_neg hno, if_neg h, bufferAfter_zero]

theorem mmapMethod_short_file (cs : Nat) (b : Nat) (g beyond : Nat → Nat) (fuel : Nat)
    (hcs : 1 < cs) (hcm : cs < OFF_MAX) (hf : 1 < fuel) :
    (mmapMethod cs (fileEnv cs [b] g beyond) fuel).map Proc.stdout
      = some [toLong (process_chunk (fun j => if j < 1 then b else beyond (j - 1)) cs)] := by
  have hn : numChunks cs [b].length = 1 := numChunks_one cs (by omega)
  have hs : (fileEnv cs [b] g beyond).file.length + cs ≤ SIZE_MOD :=
    size_bound _ _ (by simp [fileEnv, OFF_MAX]) (by omega)
  have hf1 : numChunks cs (fileEnv cs [b] g beyond).file.length < fuel := by
    show numChunks cs [b].length < fuel
    rw [hn]; exact hf
  rw [mmapMethod_eq cs _ fuel (by omega) hs hf1 rfl rfl rfl]
  simp only [fileEnv, Option.map_some', hn, xorFold, Nat.zero_xor]
  congr 3
  apply process_chunk_congr
  intro j _
  simp only [shift, mapped]
  by_cases h : j < 1
  · have hj0 : j = 0 := by omega
    subst hj0
    simp
  · rw [if_neg h, List.getD_eq_default _ _ (by simp; omega)]
    simp

theorem toLong_zero : toLong 0 = 0 := by decide

theorem toLong_one : toLong 1 = 1 := by decide

/-- C3, counterexample to independence from outside memory. On the one-byte file `[0]`, two runs of the Buffered Reader
that differ only in the prior contents of the scratch buffer print `0` and `1`, and two runs of
the Mapped Reader (and of the Optimized Mapped Reader) that differ only in the memory after the
end of the file print `0` and `1`. -/
theorem accumulator_depends_on_outside_memory :
    (readMethod CHUNK_SIZE (fileEnv CHUNK_SIZE [0] (fun _ => 0) (fun _ => 0))).stdout = [0]
    ∧ (readMethod CHUNK_SIZE
        (fileEnv CHUNK_SIZE [0] (fun i => if i = 4096 then 1 else 0) (fun _ => 0))).stdout = [1]
    ∧ (mmapMethod CHUNK_SIZE (fileEnv CHUNK_SIZE [0] (fun _ => 0) (fun _ => 0)) 2).map
        Proc.stdout = some [0]
    ∧ (mmapMethod CHUNK_SIZE
        (fileEnv CHUNK_SIZE [0] (fun _ => 0) (fun i => if i = 4095 then 1 else 0)) 2).map
        Proc.stdout = some [1]
    ∧ (mmapOptMethod CHUNK_SIZE (fileEnv CHUNK_SIZE [0] (fun _ => 0) (fun _ => 0)) 2).map
        Proc.stdout = some [0]
    ∧ (mmapOptMethod CHUNK_SIZE
        (fileEnv CHUNK_SIZE [0] (fun _ => 0) (fun i => if i = 4095 then 1 else 0)) 2).map
        Proc.stdout = some [1] := by
  have hcs : 1 < CHUNK_SIZE := by decide
  have hcm : CHUNK_SIZE < OFF_MAX := by decide
  have z1 : process_chunk (fun j => if j < 1 then 0 else (fun _ => 0) j) CHUNK_SIZE = 0 :=
    process_chunk_zero _ _ (fun p _ => by simp)
  have z2 : process_chunk (fun j => if j < 1 then 0 else (fun _ => 0) (j - 1)) CHUNK_SIZE = 0 :=
    process_chunk_zero _ _ (fun p _ => by simp)
  have o1 : process_chunk
      (fun j => if j < 1 then 0 else (fun i => if i = 4096 then 1 else 0) j) CHUNK_SIZE = 1 := by
    apply process_chunk_single _ _ 512 (by decide) (by decide)
    intro p _ hp
    by_cases h : p < 1
    · simp [h]
    · simp only [if_neg h]
      rw [if_neg (by omega)]
  have o2 : process_chunk
      (fun j => if j < 1 then 0 else (fun i => if i = 4095 then 1 else 0) (j - 1))
      CHUNK_SIZE = 1 := by
    apply process_chunk_single _ _ 512 (by decide) (by decide)
    intro p _ hp
    by_cases h : p < 1
    · simp [h]
    · simp only [if_neg h]
      rw [if_neg (by omega)]
  refine ⟨?_, ?_, ?_, ?_, ?_, ?_⟩
  · rw [readMethod_short_file CHUNK_SIZE 0 _ _ hcs, z1, toLong_zero]
  · rw [readMethod_short_file CHUNK_SIZE 0 _ _ hcs, o1, toLong_one]
  · rw [mmapMethod_short_file CHUNK_SIZE 0 _ _ 2 hcs hcm (by decide), z2, toLong_zero]
  · rw [mmapMethod_short_file CHUNK_SIZE 0 _ _ 2 hcs hcm (by decide), o2, toLong_one]
  · rw [mmapOptMethod_eq_mmapMethod,
      mmapMethod_short_file CHUNK_SIZE 0 _ _ 2 hcs hcm (by decide), z2, toLong_zero]
  · rw [mmapOptMethod_eq_mmapMethod,
      mmapMethod_short_file CHUNK_SIZE 0 _ _ 2 hcs hcm (by decide), o2, toLong_one]

/-! ## Files on which the accumulator depends on the file only -/

theorem bufferAfter_indep (cs : Nat) (file : List Nat) (g1 g2 : Nat → Nat)
    (hfull : cs ≤ file.length) :
    ∀ k, k < numChunks cs file.length → ∀ j, j < cs →
      bufferAfter cs g1 (fileReads cs file) (k + 1) j
        = bufferAfter cs g2 (fileReads cs file) (k + 1) j := by
  intro k
  induction k with
  | zero =>
    intro hk j hj
    rw [bufferAfter_fileReads cs file g1 0 j hk, bufferAfter_fileReads cs file g2 0 j hk,
      if_pos ⟨hj, by omega⟩, if_pos ⟨hj, by omega⟩]
  | succ k ih =>
    intro hk j hj
    rw [bufferAfter_fileReads cs file g1 (k + 1) j hk,
      bufferAfter_fileReads cs file g2 (k + 1) j hk]
    by_cases h : j < cs ∧ (k + 1) * cs + j < file.length
    · rw [if_pos h, if_pos h]
    · rw [if_neg h, if_neg h]
      exact ih (by omega) j hj

theorem window_indep (cs : Nat) (file : List Nat) (b1 b2 : Nat → Nat) (j : Nat)
    (hfull : (j + 1) * cs ≤ file.length) :
    process_chunk (shift (mapped file b1) (j * cs)) cs
      = process_chunk (shift (mapped file b2) (j * cs)) cs := by
  apply process_chunk_congr
  intro i hi
  have h8 : 8 * (cs / 8) ≤ cs := Nat.mul_div_le cs 8
  have hin : j * cs + i < file.length := by
    rw [Nat.add_mul] at hfull
    omega
  simp only [shift, mapped]
  rw [List.getD_eq_getElem _ _ hin, List.getD_eq_getElem _ _ hin]

/-- C3, amended. Two runs of the same strategy on files with identical byte contents print the
same result, whatever the prior contents of the scratch buffer and of the memory outside the
file, in these cases: for the Buffered Reader (the file read in chunks of `cs` bytes), when the
file is empty or holds at least `cs` bytes; for the Mapped Reader and the Optimized Mapped
Reader, when the file size is a multiple of `cs`. -/
theorem accumulator_determined_by_file (cs : Nat) (file : List Nat) (g1 g2 b1 b2 : Nat → Nat)
    (hcs : 0 < cs) :
    ((file.length = 0 ∨ cs ≤ file.length) →
        (readMethod cs (fileEnv cs file g1 b1)).stdout
          = (readMethod cs (fileEnv cs file g2 b2)).stdout)
    ∧ (file.length % cs = 0 → file.length < OFF_MAX → cs < OFF_MAX →
        ∀ fuel1 fuel2, file.length / cs < fuel1 → file.length / cs < fuel2 →
        ∃ v : Int,
          (mmapMethod cs (fileEnv cs file g1 b1) fuel1).map Proc.stdout = some [v]
          ∧ (mmapMethod cs (fileEnv cs file g2 b2) fuel2).map Proc.stdout = some [v]
          ∧ (mmapOptMethod cs (fileEnv cs file g1 b1) fuel1).map Proc.stdout = some [v]
          ∧ (mmapOptMethod cs (fileEnv cs file g2 b2) fuel2).map Proc.stdout = some [v]) := by
  constructor
  · intro h
    rw [readMethod_eq cs _ rfl, readMethod_eq cs _ rfl]
    simp only [fileEnv]
    rw [leadingReads_fileReads cs file hcs]
    have e : xorFold (fun i => process_chunk (bufferAfter cs g1 (fileReads cs file) (i + 1)) cs)
          (numChunks cs file.length)
        = xorFold (fun i => process_chunk (bufferAfter cs g2 (fileReads cs file) (i + 1)) cs)
          (numChunks cs file.length) := by
      apply xorFold_congr
      intro k hk
      rcases h with h0 | hfull
      · rw [h0] at hk
        have : numChunks cs 0 = 0 := by
          have := numChunks_mul cs 0 hcs
          simpa using this
        omega
      · apply process_chunk_congr
        intro j hj
        have h8 : 8 * (cs / 8) ≤ cs := Nat.mul_div_le cs 8
        exact bufferAfter_indep cs file g1 g2 hfull k hk j (by omega)
    rw [e]
  · intro hmul hsz hcm fuel1 fuel2 hf1 hf2
    have hlen : file.length = file.length / cs * cs :=
      (Nat.div_mul_cancel (Nat.dvd_of_mod_eq_zero hmul)).symm
    have hs : file.length + cs ≤ SIZE_MOD := size_bound _ _ hsz (by omega)
    have e : xorFold (fun j => process_chunk (shift (mapped file b2) (j * cs)) cs)
          (file.length / cs)
        = xorFold (fun j => process_chunk (shift (mapped file b1) (j * cs)) cs)
          (file.length / cs) := by
      apply xorFold_congr
      intro j hj
      apply window_indep
      have : (j + 1) * cs ≤ file.length / cs * cs := Nat.mul_le_mul_right cs hj
      omega
    refine ⟨toLong (xorFold (fun j => process_chunk (shift (mapped file b1) (j * cs)) cs)
      (file.length / cs)), ?_, ?_, ?_, ?_⟩
    · rw [mmapMethod_of_multiple cs _ file g1 b1 fuel1 hcs hlen hs hf1]
      rfl
    · rw [mmapMethod_of_multiple cs _ file g2 b2 fuel2 hcs hlen hs hf2, e]
      rfl
    · rw [mmapOptMethod_eq_mmapMethod, mmapMethod_of_multiple cs _ file g1 b1 fuel1 hcs hlen hs hf1]
      rfl
    · rw [mmapOptMethod_eq_mmapMethod,
        mmapMethod_of_multiple cs _ file g2 b2 fuel2 hcs hlen hs hf2, e]
      rfl

theorem accumulator_determined_by_file_witness :
    0 < CHUNK_SIZE
    ∧ (readMethod CHUNK_SIZE
          (fileEnv CHUNK_SIZE (wordFile 5 (CHUNK_SIZE / 8)) (fun _ => 0) (fun _ => 1))).stdout
        = (readMethod CHUNK_SIZE
          (fileEnv CHUNK_SIZE (wordFile 5 (CHUNK_SIZE / 8)) (fun _ => 2) (fun _ => 3))).stdout :=
  ⟨by decide,
    (accumulator_determined_by_file CHUNK_SIZE (wordFile 5 (CHUNK_SIZE / 8))
      (fun _ => 0) (fun _ => 2) (fun _ => 1) (fun _ => 3) (by decide)).1
      (Or.inr (by simp [wordFile, CHUNK_SIZE]))⟩

theorem buffered_reader_accumulator_witness :
    sampleReadsEnv.openOk = true
    ∧ readMethod 8 sampleReadsEnv
        = ⟨[toLong (xorFold
              (fun i => process_chunk
                (bufferAfter 8 sampleReadsEnv.garbage sampleReadsEnv.reads (i + 1)) 8)
              (leadingReads 8 sampleReadsEnv.reads))], [],
            List.replicate (leadingReads 8 sampleReadsEnv.reads) (0, 8), none⟩ :=
  ⟨rfl, (buffered_reader_accumulator 8 sampleReadsEnv rfl).1⟩

end Bench
